import Mathlib

/-!
Verification of the claude-context capture/storage core.

Shallow embedding of:
- `claude_context.capture.observation` (`Observation`, `AggregatedObservation`)
- `claude_context.capture.aggregator.aggregate`
- `claude_context.storage.dynamo.write_observation` / `fetch_service_data`
- `claude_context.capture.buffer.ObservationBuffer`

Modelling conventions:
- `datetime` timestamps are modelled as `Int` (a linear order; only `<`, `>`
  comparisons and min/max behaviour of timestamps are relevant).
- Python `set[str]` / `frozenset[str]` are modelled as `Finset String`.
- Python dicts preserve insertion order, so the `groups` dict in `aggregate`
  is modelled as an insertion-ordered association list.
- `str(status_code)` is modelled as `toString` on the `Nat` status code.
-/

/-- `Observation` dataclass from `capture/observation.py`. -/
structure Observation where
  service_name : String
  caller : String
  method : String
  path_template : String
  request_fields : Finset String
  request_headers : Finset String
  query_params : Finset String
  status_code : Nat
  timestamp : Int
deriving DecidableEq

/-- `AggregatedObservation` dataclass from `capture/observation.py`. -/
structure AggregatedObservation where
  service_name : String
  caller : String
  method : String
  path_template : String
  request_fields : Finset String := ∅
  request_headers : Finset String := ∅
  query_params : Finset String := ∅
  response_codes : Finset String := ∅
  call_count : Nat := 0
  first_seen : Int
  last_seen : Int
deriving DecidableEq

/-- The grouping key `(obs.service_name, obs.caller, obs.method, obs.path_template)`
used by `aggregate` (aggregator.py line 9). -/
abbrev AggKey := String × String × String × String

def obsKey (o : Observation) : AggKey :=
  (o.service_name, o.caller, o.method, o.path_template)

/-- The key carried by an `AggregatedObservation`'s four identity fields. -/
def aggKey (a : AggregatedObservation) : AggKey :=
  (a.service_name, a.caller, a.method, a.path_template)

/-- The fresh `AggregatedObservation` built for an unseen key
(aggregator.py lines 12-24). -/
def newAgg (o : Observation) : AggregatedObservation :=
  { service_name := o.service_name
    caller := o.caller
    method := o.method
    path_template := o.path_template
    request_fields := o.request_fields
    request_headers := o.request_headers
    query_params := o.query_params
    response_codes := {toString o.status_code}
    call_count := 1
    first_seen := o.timestamp
    last_seen := o.timestamp }

/-- The in-place merge for a seen key (aggregator.py lines 26-35):
union the three name-sets, add the stringified status code, increment the
count, and widen `[first_seen, last_seen]` with strict comparisons. -/
def mergeInto (agg : AggregatedObservation) (o : Observation) : AggregatedObservation :=
  { agg with
    request_fields := agg.request_fields ∪ o.request_fields
    request_headers := agg.request_headers ∪ o.request_headers
    query_params := agg.query_params ∪ o.query_params
    response_codes := insert (toString o.status_code) agg.response_codes
    call_count := agg.call_count + 1
    first_seen := if o.timestamp < agg.first_seen then o.timestamp else agg.first_seen
    last_seen := if o.timestamp > agg.last_seen then o.timestamp else agg.last_seen }

/-- One iteration of the loop body of `aggregate` on the insertion-ordered
`groups` dict: update the entry for `obsKey o` if present, else append a new
entry at the end (Python dict insertion semantics). -/
def updateGroups (groups : List (AggKey × AggregatedObservation)) (o : Observation) :
    List (AggKey × AggregatedObservation) :=
  match groups with
  | [] => [(obsKey o, newAgg o)]
  | (k, a) :: rest =>
      if k = obsKey o then (k, mergeInto a o) :: rest
      else (k, a) :: updateGroups rest o

/-- `aggregate` from `capture/aggregator.py`: fold the batch through the
grouping dict and return `list(groups.values())`. -/
def aggregate (observations : List Observation) : List AggregatedObservation :=
  (observations.foldl updateGroups []).map Prod.snd

/-! ### Specification-side descriptions of the per-key aggregate -/

/-- The sub-batch of observations carrying key `k`. -/
def groupObs (k : AggKey) (l : List Observation) : List Observation :=
  l.filter (fun o => obsKey o = k)

/-- Union of one of the name-set projections over a batch. -/
def setsUnion (f : Observation → Finset String) (l : List Observation) : Finset String :=
  l.foldr (fun o s => f o ∪ s) ∅

/-- The set of stringified status codes of a batch. -/
def codesOf (l : List Observation) : Finset String :=
  l.foldr (fun o s => insert (toString o.status_code) s) ∅

/-! ### Association-list lookup and the fold invariant for `aggregate` -/

/-- Lookup in the insertion-ordered `groups` association list. -/
def findEntry (k : AggKey) : List (AggKey × AggregatedObservation) → Option AggregatedObservation
  | [] => none
  | (k', a) :: rest => if k' = k then some a else findEntry k rest

/-- Merging a whole sub-batch into an existing record, observation by
observation (the seen-key branch of the loop, iterated). -/
def foldMerge (a : AggregatedObservation) (l : List Observation) : AggregatedObservation :=
  l.foldl mergeInto a

/-- The record `aggregate` produces for a (nonempty) group: seed from the
first observation, merge the rest. -/
def aggOfGroup : List Observation → Option AggregatedObservation
  | [] => none
  | o :: rest => some (foldMerge (newAgg o) rest)

/-- Merge a sub-batch into an optional existing record. -/
def mergeOpt (x : Option AggregatedObservation) (l : List Observation) :
    Option AggregatedObservation :=
  match x with
  | some a => some (foldMerge a l)
  | none => aggOfGroup l

theorem findEntry_updateGroups (groups : List (AggKey × AggregatedObservation))
    (o : Observation) (k : AggKey) :
    findEntry k (updateGroups groups o) =
      if obsKey o = k then
        match findEntry k groups with
        | some a => some (mergeInto a o)
        | none => some (newAgg o)
      else findEntry k groups := by
  induction groups with
  | nil =>
      simp [updateGroups, findEntry]
  | cons hd tl ih =>
      obtain ⟨k', a⟩ := hd
      by_cases h1 : k' = obsKey o
      · subst h1
        by_cases h2 : obsKey o = k <;> simp [updateGroups, findEntry, h2]
      · by_cases h2 : k' = k
        · have hok : ¬ obsKey o = k := fun h => h1 (h2.trans h.symm)
          have hko : ¬ k = obsKey o := fun h => hok h.symm
          simp [updateGroups, findEntry, h1, h2, hok, hko]
        · simp [updateGroups, findEntry, h1, h2, ih]

theorem findEntry_foldl (l : List Observation)
    (groups : List (AggKey × AggregatedObservation)) (k : AggKey) :
    findEntry k (l.foldl updateGroups groups) = mergeOpt (findEntry k groups) (groupObs k l) := by
  induction l generalizing groups with
  | nil =>
      cases h : findEntry k groups <;> simp [groupObs, mergeOpt, h, foldMerge, aggOfGroup]
  | cons o l' ih =>
      simp only [List.foldl_cons]
      rw [ih, findEntry_updateGroups]
      by_cases h : obsKey o = k
      · cases hg : findEntry k groups
        · simp [h, hg, mergeOpt, groupObs, aggOfGroup, foldMerge]
        · simp [h, hg, mergeOpt, groupObs, foldMerge]
      · cases hg : findEntry k groups <;>
          simp [h, hg, mergeOpt, groupObs]

/-- Specialisation to the empty initial dict actually used by `aggregate`. -/
theorem findEntry_aggregate (l : List Observation) (k : AggKey) :
    findEntry k (l.foldl updateGroups []) = aggOfGroup (groupObs k l) := by
  rw [findEntry_foldl]; rfl

/-! ### Key bookkeeping: each entry's record carries its key, keys are nodup -/

theorem aggKey_newAgg (o : Observation) : aggKey (newAgg o) = obsKey o := rfl

theorem aggKey_mergeInto (a : AggregatedObservation) (o : Observation) :
    aggKey (mergeInto a o) = aggKey a := rfl

theorem updateGroups_keys (groups : List (AggKey × AggregatedObservation)) (o : Observation) :
    (updateGroups groups o).map Prod.fst =
      if obsKey o ∈ groups.map Prod.fst then groups.map Prod.fst
      else groups.map Prod.fst ++ [obsKey o] := by
  induction groups with
  | nil => simp [updateGroups]
  | cons hd tl ih =>
      obtain ⟨k', a⟩ := hd
      by_cases h1 : k' = obsKey o
      · subst h1
        simp [updateGroups]
      · simp only [updateGroups, if_neg h1, List.map_cons, ih]
        have hne : ¬ obsKey o = k' := fun h => h1 h.symm
        by_cases h2 : obsKey o ∈ tl.map Prod.fst <;>
          simp [h2, List.mem_cons, hne]

theorem updateGroups_nodupKeys (groups : List (AggKey × AggregatedObservation)) (o : Observation)
    (h : (groups.map Prod.fst).Nodup) : ((updateGroups groups o).map Prod.fst).Nodup := by
  rw [updateGroups_keys]
  by_cases hmem : obsKey o ∈ groups.map Prod.fst
  · simpa [hmem]
  · rw [if_neg hmem]
    exact h.append (List.nodup_singleton _)
      (fun x hx hx' => hmem (List.mem_singleton.mp hx' ▸ hx))

theorem foldl_nodupKeys (l : List Observation) (groups : List (AggKey × AggregatedObservation))
    (h : (groups.map Prod.fst).Nodup) : ((l.foldl updateGroups groups).map Prod.fst).Nodup := by
  induction l generalizing groups with
  | nil => exact h
  | cons o l' ih => exact ih _ (updateGroups_nodupKeys groups o h)

theorem findEntry_of_mem (groups : List (AggKey × AggregatedObservation)) (k : AggKey)
    (a : AggregatedObservation) (hmem : (k, a) ∈ groups)
    (hnd : (groups.map Prod.fst).Nodup) : findEntry k groups = some a := by
  induction groups with
  | nil => cases hmem
  | cons hd tl ih =>
      obtain ⟨k', a'⟩ := hd
      rcases List.mem_cons.mp hmem with he | he
      · rw [Prod.mk.injEq] at he
        simp [findEntry, he.1, he.2]
      · have hk : k' ≠ k := by
          intro h
          subst h
          exact (List.nodup_cons.mp hnd).1 (List.mem_map.mpr ⟨(k', a), he, rfl⟩)
        simp only [findEntry, if_neg hk]
        exact ih he (List.nodup_cons.mp hnd).2

theorem mem_of_findEntry (groups : List (AggKey × AggregatedObservation)) (k : AggKey)
    (a : AggregatedObservation) (h : findEntry k groups = some a) : (k, a) ∈ groups := by
  induction groups with
  | nil => cases h
  | cons hd tl ih =>
      obtain ⟨k', a'⟩ := hd
      by_cases hk : k' = k
      · subst hk
        simp [findEntry] at h
        subst h; exact List.mem_cons_self _ _
      · simp only [findEntry, if_neg hk] at h
        exact List.mem_cons_of_mem _ (ih h)

theorem findEntry_eq_none (groups : List (AggKey × AggregatedObservation)) (k : AggKey) :
    findEntry k groups = none ↔ k ∉ groups.map Prod.fst := by
  induction groups with
  | nil => simp [findEntry]
  | cons hd tl ih =>
      obtain ⟨k', a'⟩ := hd
      by_cases hk : k' = k
      · subst hk; simp [findEntry]
      · have hk2 : ¬ k = k' := fun h => hk h.symm
        simp [findEntry, hk, hk2, ih]

/-! ### Field-by-field description of `foldMerge` -/

theorem aggKey_foldMerge (a : AggregatedObservation) (l : List Observation) :
    aggKey (foldMerge a l) = aggKey a := by
  induction l generalizing a with
  | nil => rfl
  | cons o l' ih => simpa [foldMerge] using ih (mergeInto a o)

theorem foldMerge_request_fields (a : AggregatedObservation) (l : List Observation) :
    (foldMerge a l).request_fields =
      a.request_fields ∪ setsUnion (fun o => o.request_fields) l := by
  induction l generalizing a with
  | nil => simp [foldMerge, setsUnion]
  | cons o l' ih =>
      show (foldMerge (mergeInto a o) l').request_fields = _
      rw [ih, setsUnion]
      simp [mergeInto, setsUnion, Finset.union_assoc]

theorem foldMerge_request_headers (a : AggregatedObservation) (l : List Observation) :
    (foldMerge a l).request_headers =
      a.request_headers ∪ setsUnion (fun o => o.request_headers) l := by
  induction l generalizing a with
  | nil => simp [foldMerge, setsUnion]
  | cons o l' ih =>
      show (foldMerge (mergeInto a o) l').request_headers = _
      rw [ih, setsUnion]
      simp [mergeInto, setsUnion, Finset.union_assoc]

theorem foldMerge_query_params (a : AggregatedObservation) (l : List Observation) :
    (foldMerge a l).query_params =
      a.query_params ∪ setsUnion (fun o => o.query_params) l := by
  induction l generalizing a with
  | nil => simp [foldMerge, setsUnion]
  | cons o l' ih =>
      show (foldMerge (mergeInto a o) l').query_params = _
      rw [ih, setsUnion]
      simp [mergeInto, setsUnion, Finset.union_assoc]

theorem foldMerge_response_codes (a : AggregatedObservation) (l : List Observation) :
    (foldMerge a l).response_codes = a.response_codes ∪ codesOf l := by
  induction l generalizing a with
  | nil => simp [foldMerge, codesOf]
  | cons o l' ih =>
      show (foldMerge (mergeInto a o) l').response_codes = _
      rw [ih, codesOf]
      simp [mergeInto, codesOf, Finset.insert_union, Finset.union_insert]

theorem foldMerge_call_count (a : AggregatedObservation) (l : List Observation) :
    (foldMerge a l).call_count = a.call_count + l.length := by
  induction l generalizing a with
  | nil => simp [foldMerge]
  | cons o l' ih =>
      show (foldMerge (mergeInto a o) l').call_count = _
      rw [ih]
      simp [mergeInto]
      omega

theorem foldMerge_first_seen_le (a : AggregatedObservation) (l : List Observation) :
    (foldMerge a l).first_seen ≤ a.first_seen ∧
      ∀ o ∈ l, (foldMerge a l).first_seen ≤ o.timestamp := by
  induction l generalizing a with
  | nil => exact ⟨le_refl _, fun o h => absurd h (List.not_mem_nil o)⟩
  | cons o l' ih =>
      have h := ih (mergeInto a o)
      have hm : (mergeInto a o).first_seen ≤ a.first_seen ∧
          (mergeInto a o).first_seen ≤ o.timestamp := by
        simp only [mergeInto]
        by_cases hc : o.timestamp < a.first_seen <;> simp [hc] <;> omega
      refine ⟨le_trans h.1 hm.1, fun o' ho' => ?_⟩
      rcases List.mem_cons.mp ho' with rfl | ho'
      · exact le_trans h.1 hm.2
      · exact h.2 o' ho'

theorem foldMerge_last_seen_ge (a : AggregatedObservation) (l : List Observation) :
    a.last_seen ≤ (foldMerge a l).last_seen ∧
      ∀ o ∈ l, o.timestamp ≤ (foldMerge a l).last_seen := by
  induction l generalizing a with
  | nil => exact ⟨le_refl _, fun o h => absurd h (List.not_mem_nil o)⟩
  | cons o l' ih =>
      have h := ih (mergeInto a o)
      have hm : a.last_seen ≤ (mergeInto a o).last_seen ∧
          o.timestamp ≤ (mergeInto a o).last_seen := by
        simp only [mergeInto]
        by_cases hc : o.timestamp > a.last_seen <;> simp [hc] <;> omega
      refine ⟨le_trans hm.1 h.1, fun o' ho' => ?_⟩
      rcases List.mem_cons.mp ho' with rfl | ho'
      · exact le_trans hm.2 h.1
      · exact h.2 o' ho'

theorem foldMerge_first_seen_mem (a : AggregatedObservation) (l : List Observation) :
    (foldMerge a l).first_seen = a.first_seen ∨
      (foldMerge a l).first_seen ∈ l.map (fun o => o.timestamp) := by
  induction l generalizing a with
  | nil => exact Or.inl rfl
  | cons o l' ih =>
      rcases ih (mergeInto a o) with h | h
      · rw [show (foldMerge a (o :: l')).first_seen = (foldMerge (mergeInto a o) l').first_seen
          from rfl, h]
        simp only [mergeInto]
        by_cases hc : o.timestamp < a.first_seen <;> simp [hc]
      · right
        rw [show (foldMerge a (o :: l')).first_seen = (foldMerge (mergeInto a o) l').first_seen
          from rfl]
        simp [List.mem_cons.mpr (Or.inr (List.mem_map.mp h |>.elim
          (fun x hx => List.mem_map.mpr ⟨x, hx.1, hx.2⟩)))]

theorem setsUnion_nil (f : Observation → Finset String) : setsUnion f [] = ∅ := rfl

theorem setsUnion_cons (f : Observation → Finset String) (o : Observation) (l : List Observation) :
    setsUnion f (o :: l) = f o ∪ setsUnion f l := rfl

theorem codesOf_nil : codesOf [] = ∅ := rfl

theorem codesOf_cons (o : Observation) (l : List Observation) :
    codesOf (o :: l) = insert (toString o.status_code) (codesOf l) := rfl

theorem mem_setsUnion (f : Observation → Finset String) (l : List Observation) (x : String) :
    x ∈ setsUnion f l ↔ ∃ o ∈ l, x ∈ f o := by
  induction l with
  | nil => simp [setsUnion_nil]
  | cons o l' ih => simp [setsUnion_cons, ih]

theorem mem_codesOf (l : List Observation) (x : String) :
    x ∈ codesOf l ↔ ∃ o ∈ l, x = toString o.status_code := by
  induction l with
  | nil => simp [codesOf_nil]
  | cons o l' ih => simp [codesOf_cons, ih]

theorem setsUnion_append (f : Observation → Finset String) (l1 l2 : List Observation) :
    setsUnion f (l1 ++ l2) = setsUnion f l1 ∪ setsUnion f l2 := by
  induction l1 with
  | nil => simp [setsUnion_nil]
  | cons o l' ih => simp [setsUnion_cons, ih, Finset.union_assoc]

theorem codesOf_append (l1 l2 : List Observation) :
    codesOf (l1 ++ l2) = codesOf l1 ∪ codesOf l2 := by
  induction l1 with
  | nil => simp [codesOf_nil]
  | cons o l' ih => simp [codesOf_cons, ih, Finset.insert_union]

theorem foldMerge_last_seen_mem (a : AggregatedObservation) (l : List Observation) :
    (foldMerge a l).last_seen = a.last_seen ∨
      (foldMerge a l).last_seen ∈ l.map (fun o => o.timestamp) := by
  induction l generalizing a with
  | nil => exact Or.inl rfl
  | cons o l' ih =>
      rcases ih (mergeInto a o) with h | h
      · rw [show (foldMerge a (o :: l')).last_seen = (foldMerge (mergeInto a o) l').last_seen
          from rfl, h]
        simp only [mergeInto]
        by_cases hc : o.timestamp > a.last_seen <;> simp [hc]
      · right
        rw [show (foldMerge a (o :: l')).last_seen = (foldMerge (mergeInto a o) l').last_seen
          from rfl]
        simp [List.mem_cons.mpr (Or.inr (List.mem_map.mp h |>.elim
          (fun x hx => List.mem_map.mpr ⟨x, hx.1, hx.2⟩)))]

/-! ### Per-entry characterization of `aggregate` -/

theorem entry_of_mem_foldl (l : List Observation) (k : AggKey) (a : AggregatedObservation)
    (h : (k, a) ∈ l.foldl updateGroups []) :
    aggKey a = k ∧ ∃ o rest, groupObs k l = o :: rest ∧ a = foldMerge (newAgg o) rest := by
  have hnd : ((l.foldl updateGroups []).map Prod.fst).Nodup :=
    foldl_nodupKeys l [] (by simp)
  have hf : findEntry k (l.foldl updateGroups []) = some a := findEntry_of_mem _ _ _ h hnd
  rw [findEntry_aggregate] at hf
  cases hg : groupObs k l with
  | nil => rw [hg] at hf; cases hf
  | cons o rest =>
      rw [hg] at hf
      simp only [aggOfGroup, Option.some.injEq] at hf
      have hok : obsKey o = k := by
        have hmem : o ∈ groupObs k l := hg ▸ List.mem_cons_self o rest
        exact of_decide_eq_true (List.mem_filter.mp hmem).2
      refine ⟨?_, o, rest, rfl, hf.symm⟩
      rw [← hf, aggKey_foldMerge, aggKey_newAgg, hok]

theorem entryKeys_foldl (l : List Observation) :
    ∀ e ∈ l.foldl updateGroups [], aggKey e.2 = e.1 := by
  intro e he
  exact (entry_of_mem_foldl l e.1 e.2 he).1

/-- Every record of `aggregate l` is the fold of the merge loop over its own
key's sub-batch, seeded from that sub-batch's first observation. -/
theorem aggregate_rec (l : List Observation) (a : AggregatedObservation)
    (ha : a ∈ aggregate l) :
    ∃ o rest, groupObs (aggKey a) l = o :: rest ∧ a = foldMerge (newAgg o) rest := by
  obtain ⟨⟨k, a'⟩, hmem, rfl⟩ := List.mem_map.mp ha
  have h := entry_of_mem_foldl l k a' hmem
  rw [show aggKey a' = k from h.1]
  exact h.2

theorem aggregate_keys_eq (l : List Observation) :
    (aggregate l).map aggKey = (l.foldl updateGroups []).map Prod.fst := by
  rw [aggregate, List.map_map]
  exact List.map_congr_left (fun e he => entryKeys_foldl l e he)

theorem aggregate_keys_nodup (l : List Observation) : ((aggregate l).map aggKey).Nodup := by
  rw [aggregate_keys_eq]
  exact foldl_nodupKeys l [] (by simp)

theorem aggregate_keys_mem (l : List Observation) (k : AggKey) :
    k ∈ (aggregate l).map aggKey ↔ k ∈ l.map obsKey := by
  rw [aggregate_keys_eq]
  constructor
  · intro h
    rcases hf : findEntry k (l.foldl updateGroups []) with _ | a
    · exact absurd ((findEntry_eq_none _ _).mp hf) (fun h' => h' h)
    · rw [findEntry_aggregate] at hf
      cases hg : groupObs k l with
      | nil => rw [hg] at hf; cases hf
      | cons o rest =>
          have hmem : o ∈ groupObs k l := hg ▸ List.mem_cons_self o rest
          have ho := List.mem_filter.mp hmem
          exact List.mem_map.mpr ⟨o, ho.1, of_decide_eq_true ho.2⟩
  · intro h
    obtain ⟨o, ho, rfl⟩ := List.mem_map.mp h
    by_contra hnot
    have hf := (findEntry_eq_none _ _).mpr hnot
    rw [findEntry_aggregate] at hf
    have hg : o ∈ groupObs (obsKey o) l := List.mem_filter.mpr ⟨ho, by simp⟩
    cases hge : groupObs (obsKey o) l with
    | nil => rw [hge] at hg; cases hg
    | cons o' rest => rw [hge] at hf; cases hf

theorem aggregate_fields (l : List Observation) (a : AggregatedObservation)
    (ha : a ∈ aggregate l) :
    a.request_fields = setsUnion (fun o => o.request_fields) (groupObs (aggKey a) l) ∧
    a.request_headers = setsUnion (fun o => o.request_headers) (groupObs (aggKey a) l) ∧
    a.query_params = setsUnion (fun o => o.query_params) (groupObs (aggKey a) l) ∧
    a.response_codes = codesOf (groupObs (aggKey a) l) ∧
    a.call_count = (groupObs (aggKey a) l).length := by
  obtain ⟨o, rest, hg, ha'⟩ := aggregate_rec l a ha
  subst ha'
  rw [hg]
  refine ⟨?_, ?_, ?_, ?_, ?_⟩
  · rw [foldMerge_request_fields, setsUnion_cons]; rfl
  · rw [foldMerge_request_headers, setsUnion_cons]; rfl
  · rw [foldMerge_query_params, setsUnion_cons]; rfl
  · rw [foldMerge_response_codes, codesOf_cons]
    show {toString o.status_code} ∪ codesOf rest = _
    rw [← Finset.insert_eq]
  · rw [foldMerge_call_count]
    show 1 + rest.length = rest.length + 1
    omega

/-- A concrete observation used by the closed witness theorems. -/
def sampleObs : Observation :=
  { service_name := "svc", caller := "web", method := "GET", path_template := "/x",
    request_fields := {"f1"}, request_headers := {"h1"}, query_params := ∅,
    status_code := 200, timestamp := 3 }

/-- **C1.** For every finite batch, `aggregate` returns exactly one
`AggregatedObservation` per distinct `(service_name, caller, method,
path_template)` key; each output record's `request_fields`,
`request_headers` and `query_params` are the unions of the corresponding
sets of the input observations with that key, `response_codes` is the set
of their stringified status codes, and `call_count` is the number of such
observations; `aggregate [] = []`. -/
theorem aggregate_one_record_per_key (l : List Observation) :
    aggregate [] = [] ∧
    ((aggregate l).map aggKey).Nodup ∧
    (∀ k : AggKey, k ∈ (aggregate l).map aggKey ↔ k ∈ l.map obsKey) ∧
    (∀ a ∈ aggregate l,
      a.request_fields = setsUnion (fun o => o.request_fields) (groupObs (aggKey a) l) ∧
      a.request_headers = setsUnion (fun o => o.request_headers) (groupObs (aggKey a) l) ∧
      a.query_params = setsUnion (fun o => o.query_params) (groupObs (aggKey a) l) ∧
      a.response_codes = codesOf (groupObs (aggKey a) l) ∧
      a.call_count = (groupObs (aggKey a) l).length) :=
  ⟨rfl, aggregate_keys_nodup l, aggregate_keys_mem l, fun a ha => aggregate_fields l a ha⟩

/-- Closed witness for C1 at a concrete one-observation batch. -/
theorem aggregate_one_record_per_key_witness :
    newAgg sampleObs ∈ aggregate [sampleObs] ∧
      (newAgg sampleObs).call_count =
        (groupObs (aggKey (newAgg sampleObs)) [sampleObs]).length := by
  have hmem : newAgg sampleObs ∈ aggregate [sampleObs] :=
    List.mem_singleton.mpr rfl
  exact ⟨hmem,
    ((aggregate_one_record_per_key [sampleObs]).2.2.2 (newAgg sampleObs) hmem).2.2.2.2⟩

/-- **C2.** Every record produced by `aggregate` satisfies
`first_seen ≤ last_seen`; `first_seen` is the minimum timestamp of its
key's sub-batch (a member of the timestamps and a lower bound) and
`last_seen` the maximum, for every input list (hence every ordering of
the batch). -/
theorem aggregate_first_last_seen_minmax (l : List Observation) (a : AggregatedObservation)
    (ha : a ∈ aggregate l) :
    a.first_seen ≤ a.last_seen ∧
    a.first_seen ∈ (groupObs (aggKey a) l).map (fun o => o.timestamp) ∧
    a.last_seen ∈ (groupObs (aggKey a) l).map (fun o => o.timestamp) ∧
    ∀ o ∈ groupObs (aggKey a) l, a.first_seen ≤ o.timestamp ∧ o.timestamp ≤ a.last_seen := by
  obtain ⟨o, rest, hg, ha'⟩ := aggregate_rec l a ha
  subst ha'
  rw [hg]
  have h1 := foldMerge_first_seen_le (newAgg o) rest
  have h2 := foldMerge_last_seen_ge (newAgg o) rest
  have hfs : (foldMerge (newAgg o) rest).first_seen ≤ o.timestamp := h1.1
  have hls : o.timestamp ≤ (foldMerge (newAgg o) rest).last_seen := h2.1
  refine ⟨le_trans hfs hls, ?_, ?_, ?_⟩
  · rcases foldMerge_first_seen_mem (newAgg o) rest with h | h
    · rw [h]; exact List.mem_map.mpr ⟨o, List.mem_cons_self _ _, rfl⟩
    · simp only [List.map_cons, List.mem_cons]; right
      simpa using h
  · rcases foldMerge_last_seen_mem (newAgg o) rest with h | h
    · rw [h]; exact List.mem_map.mpr ⟨o, List.mem_cons_self _ _, rfl⟩
    · simp only [List.map_cons, List.mem_cons]; right
      simpa using h
  · intro o' ho'
    rcases List.mem_cons.mp ho' with rfl | ho'
    · exact ⟨hfs, hls⟩
    · exact ⟨h1.2 o' ho', h2.2 o' ho'⟩

/-- Closed witness for C2 at a concrete one-observation batch. -/
theorem aggregate_first_last_seen_minmax_witness :
    (newAgg sampleObs).first_seen ≤ (newAgg sampleObs).last_seen :=
  (aggregate_first_last_seen_minmax [sampleObs] (newAgg sampleObs)
    (List.mem_singleton.mpr rfl)).1

/-! ### Re-aggregation of already-aggregated records (C3) -/

/-- Lookup a record by its identity key in an output list of
`AggregatedObservation`s. -/
def findAgg (k : AggKey) : List AggregatedObservation → Option AggregatedObservation
  | [] => none
  | a :: rest => if aggKey a = k then some a else findAgg k rest

/-- Merge of two same-key `AggregatedObservation`s, following the spec's
description of the merge: union the three name-sets and the response
codes, sum the counts, widen the `[first_seen, last_seen]` window with
strict comparisons. This is the second-stage merge used when treating
`AggregatedObservation`s as seed input. -/
def mergeAgg (a b : AggregatedObservation) : AggregatedObservation :=
  { a with
    request_fields := a.request_fields ∪ b.request_fields
    request_headers := a.request_headers ∪ b.request_headers
    query_params := a.query_params ∪ b.query_params
    response_codes := a.response_codes ∪ b.response_codes
    call_count := a.call_count + b.call_count
    first_seen := if b.first_seen < a.first_seen then b.first_seen else a.first_seen
    last_seen := if b.last_seen > a.last_seen then b.last_seen else a.last_seen }

/-- Grouping loop body for re-aggregation, keyed on the records' own
identity fields (mirrors `updateGroups`). -/
def updateAggGroups (groups : List (AggKey × AggregatedObservation)) (b : AggregatedObservation) :
    List (AggKey × AggregatedObservation) :=
  match groups with
  | [] => [(aggKey b, b)]
  | (k, a) :: rest =>
      if k = aggKey b then (k, mergeAgg a b) :: rest
      else (k, a) :: updateAggGroups rest b

/-- Second-stage aggregation: aggregate a batch of already-aggregated
records by key. -/
def aggregateAggs (batch : List AggregatedObservation) : List AggregatedObservation :=
  (batch.foldl updateAggGroups []).map Prod.snd

/-- The sub-batch of aggregated records carrying key `k`. -/
def groupAggs (k : AggKey) (batch : List AggregatedObservation) : List AggregatedObservation :=
  batch.filter (fun b => aggKey b = k)

/-- The record re-aggregation produces for a (nonempty) group. -/
def aggsOfGroup : List AggregatedObservation → Option AggregatedObservation
  | [] => none
  | b :: rest => some (rest.foldl mergeAgg b)

/-- Merge a group of aggregated records into an optional existing record. -/
def mergeOptAgg (x : Option AggregatedObservation) (g : List AggregatedObservation) :
    Option AggregatedObservation :=
  match x with
  | some a => some (g.foldl mergeAgg a)
  | none => aggsOfGroup g

theorem aggKey_mergeAgg (a b : AggregatedObservation) : aggKey (mergeAgg a b) = aggKey a := rfl

theorem aggKey_foldl_mergeAgg (a : AggregatedObservation) (g : List AggregatedObservation) :
    aggKey (g.foldl mergeAgg a) = aggKey a := by
  induction g generalizing a with
  | nil => rfl
  | cons b g' ih => simpa using ih (mergeAgg a b)

theorem findEntry_updateAggGroups (groups : List (AggKey × AggregatedObservation))
    (b : AggregatedObservation) (k : AggKey) :
    findEntry k (updateAggGroups groups b) =
      if aggKey b = k then
        match findEntry k groups with
        | some a => some (mergeAgg a b)
        | none => some b
      else findEntry k groups := by
  induction groups with
  | nil =>
      simp [updateAggGroups, findEntry]
  | cons hd tl ih =>
      obtain ⟨k', a⟩ := hd
      by_cases h1 : k' = aggKey b
      · subst h1
        by_cases h2 : aggKey b = k <;> simp [updateAggGroups, findEntry, h2]
      · by_cases h2 : k' = k
        · have hok : ¬ aggKey b = k := fun h => h1 (h2.trans h.symm)
          have hko : ¬ k = aggKey b := fun h => hok h.symm
          simp [updateAggGroups, findEntry, h1, h2, hok, hko]
        · simp [updateAggGroups, findEntry, h1, h2, ih]

theorem findEntry_foldlAgg (batch : List AggregatedObservation)
    (groups : List (AggKey × AggregatedObservation)) (k : AggKey) :
    findEntry k (batch.foldl updateAggGroups groups) =
      mergeOptAgg (findEntry k groups) (groupAggs k batch) := by
  induction batch generalizing groups with
  | nil =>
      cases h : findEntry k groups <;> simp [groupAggs, mergeOptAgg, h, aggsOfGroup]
  | cons b batch' ih =>
      simp only [List.foldl_cons]
      rw [ih, findEntry_updateAggGroups]
      by_cases h : aggKey b = k
      · cases hg : findEntry k groups
        · simp [h, hg, mergeOptAgg, groupAggs, aggsOfGroup]
        · simp [h, hg, mergeOptAgg, groupAggs]
      · cases hg : findEntry k groups <;>
          simp [h, hg, mergeOptAgg, groupAggs]

theorem findEntry_aggregateAggs (batch : List AggregatedObservation) (k : AggKey) :
    findEntry k (batch.foldl updateAggGroups []) = aggsOfGroup (groupAggs k batch) := by
  rw [findEntry_foldlAgg]; rfl

theorem updateAggGroups_keys (groups : List (AggKey × AggregatedObservation))
    (b : AggregatedObservation) :
    (updateAggGroups groups b).map Prod.fst =
      if aggKey b ∈ groups.map Prod.fst then groups.map Prod.fst
      else groups.map Prod.fst ++ [aggKey b] := by
  induction groups with
  | nil => simp [updateAggGroups]
  | cons hd tl ih =>
      obtain ⟨k', a⟩ := hd
      by_cases h1 : k' = aggKey b
      · subst h1
        simp [updateAggGroups]
      · simp only [updateAggGroups, if_neg h1, List.map_cons, ih]
        have hne : ¬ aggKey b = k' := fun h => h1 h.symm
        by_cases h2 : aggKey b ∈ tl.map Prod.fst <;>
          simp [h2, List.mem_cons, hne]

theorem updateAggGroups_nodupKeys (groups : List (AggKey × AggregatedObservation))
    (b : AggregatedObservation) (h : (groups.map Prod.fst).Nodup) :
    ((updateAggGroups groups b).map Prod.fst).Nodup := by
  rw [updateAggGroups_keys]
  by_cases hmem : aggKey b ∈ groups.map Prod.fst
  · simpa [hmem]
  · rw [if_neg hmem]
    exact h.append (List.nodup_singleton _)
      (fun x hx hx' => hmem (List.mem_singleton.mp hx' ▸ hx))

theorem foldlAgg_nodupKeys (batch : List AggregatedObservation)
    (groups : List (AggKey × AggregatedObservation)) (h : (groups.map Prod.fst).Nodup) :
    ((batch.foldl updateAggGroups groups).map Prod.fst).Nodup := by
  induction batch generalizing groups with
  | nil => exact h
  | cons b batch' ih => exact ih _ (updateAggGroups_nodupKeys groups b h)

theorem entryKeysAgg_foldl (batch : List AggregatedObservation) :
    ∀ e ∈ batch.foldl updateAggGroups [], aggKey e.2 = e.1 := by
  intro e he
  have hnd : ((batch.foldl updateAggGroups []).map Prod.fst).Nodup :=
    foldlAgg_nodupKeys batch [] (by simp)
  have hf : findEntry e.1 (batch.foldl updateAggGroups []) = some e.2 :=
    findEntry_of_mem _ _ _ (by simpa using he) hnd
  rw [findEntry_aggregateAggs] at hf
  cases hg : groupAggs e.1 batch with
  | nil => rw [hg] at hf; cases hf
  | cons b rest =>
      rw [hg] at hf
      simp only [aggsOfGroup, Option.some.injEq] at hf
      have hbk : aggKey b = e.1 := by
        have hmem : b ∈ groupAggs e.1 batch := hg ▸ List.mem_cons_self b rest
        exact of_decide_eq_true (List.mem_filter.mp hmem).2
      rw [← hf, aggKey_foldl_mergeAgg, hbk]

/-- Bridging: looking a key up in the values list equals looking it up in
the association list, provided every entry carries its own key. -/
theorem findAgg_map (G : List (AggKey × AggregatedObservation)) (k : AggKey)
    (hkeys : ∀ e ∈ G, aggKey e.2 = e.1) :
    findAgg k (G.map Prod.snd) = findEntry k G := by
  induction G with
  | nil => rfl
  | cons e G' ih =>
      obtain ⟨k', a⟩ := e
      have hk : aggKey a = k' := hkeys (k', a) (List.mem_cons_self _ _)
      simp only [List.map_cons, findAgg, findEntry, hk]
      exact if_congr Iff.rfl rfl (ih (fun e he => hkeys e (List.mem_cons_of_mem _ he)))

theorem findAgg_aggregate (l : List Observation) (k : AggKey) :
    findAgg k (aggregate l) = aggOfGroup (groupObs k l) := by
  rw [aggregate, findAgg_map _ _ (entryKeys_foldl l), findEntry_aggregate]

theorem findAgg_aggregateAggs (batch : List AggregatedObservation) (k : AggKey) :
    findAgg k (aggregateAggs batch) = aggsOfGroup (groupAggs k batch) := by
  rw [aggregateAggs, findAgg_map _ _ (entryKeysAgg_foldl batch), findEntry_aggregateAggs]

/-- Set-valued projection of an optional record (absent key = empty set). -/
def optSet (f : AggregatedObservation → Finset String) :
    Option AggregatedObservation → Finset String
  | none => ∅
  | some a => f a

/-- Count projection of an optional record (absent key = zero). -/
def optCount : Option AggregatedObservation → Nat
  | none => 0
  | some a => a.call_count

theorem aggOfGroup_request_fields (g : List Observation) :
    optSet (fun a => a.request_fields) (aggOfGroup g) =
      setsUnion (fun o => o.request_fields) g := by
  cases g with
  | nil => rfl
  | cons o rest =>
      simp only [aggOfGroup, optSet, foldMerge_request_fields, setsUnion_cons]
      rfl

theorem aggOfGroup_request_headers (g : List Observation) :
    optSet (fun a => a.request_headers) (aggOfGroup g) =
      setsUnion (fun o => o.request_headers) g := by
  cases g with
  | nil => rfl
  | cons o rest =>
      simp only [aggOfGroup, optSet, foldMerge_request_headers, setsUnion_cons]
      rfl

theorem aggOfGroup_query_params (g : List Observation) :
    optSet (fun a => a.query_params) (aggOfGroup g) =
      setsUnion (fun o => o.query_params) g := by
  cases g with
  | nil => rfl
  | cons o rest =>
      simp only [aggOfGroup, optSet, foldMerge_query_params, setsUnion_cons]
      rfl

theorem aggOfGroup_response_codes (g : List Observation) :
    optSet (fun a => a.response_codes) (aggOfGroup g) = codesOf g := by
  cases g with
  | nil => rfl
  | cons o rest =>
      simp only [aggOfGroup, optSet, foldMerge_response_codes, codesOf_cons]
      show {toString o.status_code} ∪ codesOf rest = _
      rw [← Finset.insert_eq]

theorem aggOfGroup_count (g : List Observation) :
    optCount (aggOfGroup g) = g.length := by
  cases g with
  | nil => rfl
  | cons o rest =>
      simp only [aggOfGroup, optCount, foldMerge_call_count, List.length_cons]
      show 1 + rest.length = rest.length + 1
      omega

/-- In a list whose records carry pairwise distinct keys, the key-`k`
sub-batch is exactly the element `findAgg` returns (if any). -/
theorem groupAggs_of_nodup (lst : List AggregatedObservation) (k : AggKey)
    (h : (lst.map aggKey).Nodup) :
    groupAggs k lst = (findAgg k lst).toList := by
  induction lst with
  | nil => rfl
  | cons a rest ih =>
      rw [List.map_cons, List.nodup_cons] at h
      by_cases hk : aggKey a = k
      · have hrest : rest.filter (fun b => aggKey b = k) = [] := by
          rw [List.filter_eq_nil_iff]
          intro b hb hbk
          exact h.1 (List.mem_map.mpr ⟨b, hb, (of_decide_eq_true hbk).trans hk.symm⟩)
        simp [groupAggs, List.filter_cons, findAgg, hk, hrest]
      · have hrest := ih h.2
        simp only [groupAggs] at hrest
        simp [groupAggs, List.filter_cons, findAgg, hk, hrest]

theorem groupObs_append (k : AggKey) (l1 l2 : List Observation) :
    groupObs k (l1 ++ l2) = groupObs k l1 ++ groupObs k l2 := by
  simp [groupObs, List.filter_append]

theorem groupAggs_append (k : AggKey) (b1 b2 : List AggregatedObservation) :
    groupAggs k (b1 ++ b2) = groupAggs k b1 ++ groupAggs k b2 := by
  simp [groupAggs, List.filter_append]

theorem aggsOfGroup_pair_set (f : AggregatedObservation → Finset String)
    (hf : ∀ a b, f (mergeAgg a b) = f a ∪ f b) (x1 x2 : Option AggregatedObservation) :
    optSet f (aggsOfGroup (x1.toList ++ x2.toList)) = optSet f x1 ∪ optSet f x2 := by
  cases x1 <;> cases x2 <;>
    simp [aggsOfGroup, optSet, Option.toList, hf]

theorem aggsOfGroup_pair_count (x1 x2 : Option AggregatedObservation) :
    optCount (aggsOfGroup (x1.toList ++ x2.toList)) = optCount x1 + optCount x2 := by
  cases x1 <;> cases x2 <;>
    simp [aggsOfGroup, optCount, Option.toList, mergeAgg]

/-- **C3.** Aggregation merge is associative: re-aggregating the outputs of
two per-batch aggregations (treating the `AggregatedObservation`s as seed
input) yields, for every key, the same name-sets and `response_codes` as
aggregating the concatenated batch in one pass, and the one-pass per-key
count is the sum of the two per-batch counts. -/
theorem aggregate_merge_assoc (l1 l2 : List Observation) (k : AggKey) :
    optSet (fun a => a.request_fields)
        (findAgg k (aggregateAggs (aggregate l1 ++ aggregate l2))) =
      optSet (fun a => a.request_fields) (findAgg k (aggregate (l1 ++ l2))) ∧
    optSet (fun a => a.request_headers)
        (findAgg k (aggregateAggs (aggregate l1 ++ aggregate l2))) =
      optSet (fun a => a.request_headers) (findAgg k (aggregate (l1 ++ l2))) ∧
    optSet (fun a => a.query_params)
        (findAgg k (aggregateAggs (aggregate l1 ++ aggregate l2))) =
      optSet (fun a => a.query_params) (findAgg k (aggregate (l1 ++ l2))) ∧
    optSet (fun a => a.response_codes)
        (findAgg k (aggregateAggs (aggregate l1 ++ aggregate l2))) =
      optSet (fun a => a.response_codes) (findAgg k (aggregate (l1 ++ l2))) ∧
    optCount (findAgg k (aggregateAggs (aggregate l1 ++ aggregate l2))) =
      optCount (findAgg k (aggregate (l1 ++ l2))) ∧
    optCount (findAgg k (aggregate (l1 ++ l2))) =
      optCount (findAgg k (aggregate l1)) + optCount (findAgg k (aggregate l2)) := by
  have htwo : findAgg k (aggregateAggs (aggregate l1 ++ aggregate l2)) =
      aggsOfGroup ((findAgg k (aggregate l1)).toList ++ (findAgg k (aggregate l2)).toList) := by
    rw [findAgg_aggregateAggs, groupAggs_append,
      groupAggs_of_nodup _ _ (aggregate_keys_nodup l1),
      groupAggs_of_nodup _ _ (aggregate_keys_nodup l2)]
  refine ⟨?_, ?_, ?_, ?_, ?_, ?_⟩
  · rw [htwo, aggsOfGroup_pair_set _ (fun a b => rfl),
      findAgg_aggregate, findAgg_aggregate, findAgg_aggregate,
      aggOfGroup_request_fields, aggOfGroup_request_fields, aggOfGroup_request_fields,
      groupObs_append, setsUnion_append]
  · rw [htwo, aggsOfGroup_pair_set _ (fun a b => rfl),
      findAgg_aggregate, findAgg_aggregate, findAgg_aggregate,
      aggOfGroup_request_headers, aggOfGroup_request_headers, aggOfGroup_request_headers,
      groupObs_append, setsUnion_append]
  · rw [htwo, aggsOfGroup_pair_set _ (fun a b => rfl),
      findAgg_aggregate, findAgg_aggregate, findAgg_aggregate,
      aggOfGroup_query_params, aggOfGroup_query_params, aggOfGroup_query_params,
      groupObs_append, setsUnion_append]
  · rw [htwo, aggsOfGroup_pair_set _ (fun a b => rfl),
      findAgg_aggregate, findAgg_aggregate, findAgg_aggregate,
      aggOfGroup_response_codes, aggOfGroup_response_codes, aggOfGroup_response_codes,
      groupObs_append, codesOf_append]
  · rw [htwo, aggsOfGroup_pair_count,
      findAgg_aggregate, findAgg_aggregate, findAgg_aggregate,
      aggOfGroup_count, aggOfGroup_count, aggOfGroup_count,
      groupObs_append, List.length_append]
  · rw [findAgg_aggregate, findAgg_aggregate, findAgg_aggregate,
      aggOfGroup_count, aggOfGroup_count, aggOfGroup_count,
      groupObs_append, List.length_append]

/-! ### `storage/dynamo.py`: the upsert operation (C4, C5) -/

/-- A DynamoDB expression attribute value as used by `write_observation`:
a number (`Decimal`/int), an isoformat timestamp string (carried here as
its underlying time), or a string set. -/
inductive AttrValue
  | num (n : Int)
  | time (t : Int)
  | strSet (s : Finset String)
deriving DecidableEq

/-- The `set_parts` list built by `write_observation`
(dynamo.py lines 24-28). -/
def set_parts : List String :=
  ["last_seen = :last_seen",
   "first_seen = if_not_exists(first_seen, :first_seen)",
   "#ttl = :ttl"]

/-- The `add_parts` list built by `write_observation` (dynamo.py lines
29, 38-49): `call_count` always, each string set only when non-empty. -/
def add_parts (agg : AggregatedObservation) : List String :=
  ["call_count :count"]
  ++ (if agg.request_fields ≠ ∅ then ["request_fields :rf"] else [])
  ++ (if agg.request_headers ≠ ∅ then ["request_headers :rh"] else [])
  ++ (if agg.query_params ≠ ∅ then ["query_params :qp"] else [])
  ++ (if agg.response_codes ≠ ∅ then ["response_codes :rc"] else [])

/-- The TTL computed by `write_observation` (dynamo.py line 20):
`last_seen + ttl_days` in epoch seconds. -/
def ttlOf (agg : AggregatedObservation) (ttl_days : Int) : Int :=
  agg.last_seen + ttl_days * 86400

/-- The `attr_values` dict built by `write_observation` (dynamo.py lines
30-49), as an insertion-ordered list of placeholder/value pairs. -/
def attr_values (agg : AggregatedObservation) (ttl_days : Int) : List (String × AttrValue) :=
  [(":count", AttrValue.num agg.call_count),
   (":last_seen", AttrValue.time agg.last_seen),
   (":first_seen", AttrValue.time agg.first_seen),
   (":ttl", AttrValue.num (ttlOf agg ttl_days))]
  ++ (if agg.request_fields ≠ ∅ then [(":rf", AttrValue.strSet agg.request_fields)] else [])
  ++ (if agg.request_headers ≠ ∅ then [(":rh", AttrValue.strSet agg.request_headers)] else [])
  ++ (if agg.query_params ≠ ∅ then [(":qp", AttrValue.strSet agg.query_params)] else [])
  ++ (if agg.response_codes ≠ ∅ then [(":rc", AttrValue.strSet agg.response_codes)] else [])

/-- The persisted DynamoDB item for one `(PK, SK)` key; `none` means the
attribute is absent from the stored record. -/
structure StoredRecord where
  call_count : Option Int := none
  first_seen : Option Int := none
  last_seen : Option Int := none
  ttl : Option Int := none
  request_fields : Option (Finset String) := none
  request_headers : Option (Finset String) := none
  query_params : Option (Finset String) := none
  response_codes : Option (Finset String) := none
deriving DecidableEq

/-- The empty (not yet existing) item. -/
def emptyRecord : StoredRecord := {}

/-- Modelled from the spec: DynamoDB's application of the update
expression built by `write_observation` (the store's `SET`,
`if_not_exists` and `ADD` primitives are not part of this repository).
`SET a = v` overwrites, `SET a = if_not_exists(a, v)` writes only when
absent, `ADD n :v` adds to a number defaulting to 0, `ADD s :v`
set-unions into a string set defaulting to empty; the empty-set guards
reproduce dynamo.py lines 38-49. -/
def applyWrite (r : StoredRecord) (agg : AggregatedObservation) (ttl_days : Int) : StoredRecord :=
  { call_count := some (r.call_count.getD 0 + agg.call_count)
    first_seen := some (r.first_seen.getD agg.first_seen)
    last_seen := some agg.last_seen
    ttl := some (ttlOf agg ttl_days)
    request_fields :=
      if agg.request_fields ≠ ∅ then some (r.request_fields.getD ∅ ∪ agg.request_fields)
      else r.request_fields
    request_headers :=
      if agg.request_headers ≠ ∅ then some (r.request_headers.getD ∅ ∪ agg.request_headers)
      else r.request_headers
    query_params :=
      if agg.query_params ≠ ∅ then some (r.query_params.getD ∅ ∪ agg.query_params)
      else r.query_params
    response_codes :=
      if agg.response_codes ≠ ∅ then some (r.response_codes.getD ∅ ∪ agg.response_codes)
      else r.response_codes }

/-- **C4.** Upserting the same `AggregatedObservation` twice against an
initially empty store doubles `call_count`, leaves the four set-valued
attributes equal to the single-write outcome, keeps `first_seen` at the
value set by the first write, and leaves `last_seen` at the last write's
value: writes are idempotent for sets and `first_seen`, additive for
`call_count`, last-write-wins for `last_seen`. -/
theorem write_observation_redelivery (agg : AggregatedObservation) (ttl_days : Int) :
    (applyWrite (applyWrite emptyRecord agg ttl_days) agg ttl_days).call_count =
      some (2 * (agg.call_count : Int)) ∧
    (applyWrite emptyRecord agg ttl_days).call_count = some (agg.call_count : Int) ∧
    (applyWrite (applyWrite emptyRecord agg ttl_days) agg ttl_days).request_fields =
      (applyWrite emptyRecord agg ttl_days).request_fields ∧
    (applyWrite (applyWrite emptyRecord agg ttl_days) agg ttl_days).request_headers =
      (applyWrite emptyRecord agg ttl_days).request_headers ∧
    (applyWrite (applyWrite emptyRecord agg ttl_days) agg ttl_days).query_params =
      (applyWrite emptyRecord agg ttl_days).query_params ∧
    (applyWrite (applyWrite emptyRecord agg ttl_days) agg ttl_days).response_codes =
      (applyWrite emptyRecord agg ttl_days).response_codes ∧
    (applyWrite (applyWrite emptyRecord agg ttl_days) agg ttl_days).first_seen =
      some agg.first_seen ∧
    (applyWrite emptyRecord agg ttl_days).first_seen = some agg.first_seen ∧
    (applyWrite (applyWrite emptyRecord agg ttl_days) agg ttl_days).last_seen =
      some agg.last_seen := by
  refine ⟨?_, ?_, ?_, ?_, ?_, ?_, ?_, ?_, ?_⟩
  · simp only [applyWrite, emptyRecord, Option.getD_some, Option.getD_none,
      Option.some.injEq]
    ring
  · simp [applyWrite, emptyRecord]
  · by_cases h : agg.request_fields = ∅ <;>
      simp [applyWrite, emptyRecord, h, Finset.empty_union, Finset.union_self,
        Finset.union_assoc]
  · by_cases h : agg.request_headers = ∅ <;>
      simp [applyWrite, emptyRecord, h, Finset.empty_union, Finset.union_self,
        Finset.union_assoc]
  · by_cases h : agg.query_params = ∅ <;>
      simp [applyWrite, emptyRecord, h, Finset.empty_union, Finset.union_self,
        Finset.union_assoc]
  · by_cases h : agg.response_codes = ∅ <;>
      simp [applyWrite, emptyRecord, h, Finset.empty_union, Finset.union_self,
        Finset.union_assoc]
  · simp [applyWrite, emptyRecord]
  · simp [applyWrite, emptyRecord]
  · simp [applyWrite, emptyRecord]

/-- **C5.** The update expression built by `write_observation` contains a
union-add clause and its attribute value for each of the four sets if and
only if that set is non-empty; with all three name-sets empty, the only
add clauses left are `call_count` and (when non-empty) `response_codes`,
so an empty union-add operand can never be issued. -/
theorem write_observation_empty_set_guard (agg : AggregatedObservation) (ttl_days : Int) :
    ("request_fields :rf" ∈ add_parts agg ↔ agg.request_fields ≠ ∅) ∧
    ("request_headers :rh" ∈ add_parts agg ↔ agg.request_headers ≠ ∅) ∧
    ("query_params :qp" ∈ add_parts agg ↔ agg.query_params ≠ ∅) ∧
    ("response_codes :rc" ∈ add_parts agg ↔ agg.response_codes ≠ ∅) ∧
    (":rf" ∈ (attr_values agg ttl_days).map Prod.fst ↔ agg.request_fields ≠ ∅) ∧
    (":rh" ∈ (attr_values agg ttl_days).map Prod.fst ↔ agg.request_headers ≠ ∅) ∧
    (":qp" ∈ (attr_values agg ttl_days).map Prod.fst ↔ agg.query_params ≠ ∅) ∧
    (":rc" ∈ (attr_values agg ttl_days).map Prod.fst ↔ agg.response_codes ≠ ∅) ∧
    "call_count :count" ∈ add_parts agg ∧
    (agg.request_fields = ∅ → agg.request_headers = ∅ → agg.query_params = ∅ →
      add_parts agg =
        "call_count :count" :: (if agg.response_codes ≠ ∅ then ["response_codes :rc"] else [])) := by
  refine ⟨?_, ?_, ?_, ?_, ?_, ?_, ?_, ?_, ?_, ?_⟩ <;>
  · by_cases h1 : agg.request_fields = ∅ <;>
    by_cases h2 : agg.request_headers = ∅ <;>
    by_cases h3 : agg.query_params = ∅ <;>
    by_cases h4 : agg.response_codes = ∅ <;>
      simp [add_parts, attr_values, h1, h2, h3, h4]

/-- A concrete aggregated record used by the closed witness theorems. -/
def sampleAgg : AggregatedObservation :=
  { service_name := "svc", caller := "web", method := "GET", path_template := "/x",
    request_fields := {"f1"}, request_headers := ∅, query_params := ∅,
    response_codes := {"200"}, call_count := 2, first_seen := 1, last_seen := 4 }

/-- Closed witness for C5: with all three name-sets empty, the add
clauses are exactly `call_count` and `response_codes`. -/
theorem write_observation_empty_set_guard_witness :
    add_parts { sampleAgg with request_fields := ∅ } =
      ["call_count :count", "response_codes :rc"] := by
  have h := (write_observation_empty_set_guard
    { sampleAgg with request_fields := ∅ } 90).2.2.2.2.2.2.2.2.2
  rw [h rfl rfl rfl]
  norm_num [sampleAgg]

/-! ### `fetch_service_data` pagination (C7) -/

/-- A paginated store partition: the sequence of pages the store hands
back for successive `query` calls (following `LastEvaluatedKey`), each
page either a list of items or a failed query. -/
structure DynamoTable where
  partition : String → List (Except String (List StoredRecord))

/-- The `while True` accumulation loop of `fetch_service_data`
(dynamo.py lines 116-123): extend `items` with each page, follow the
cursor until exhausted; a raised query error propagates and discards the
partial accumulation. -/
def fetchLoop : List (Except String (List StoredRecord)) → Except String (List StoredRecord)
  | [] => Except.ok []
  | Except.error e :: _ => Except.error e
  | Except.ok page :: rest =>
      match fetchLoop rest with
      | Except.ok items => Except.ok (page ++ items)
      | Except.error e => Except.error e

/-- `fetch_service_data` from `storage/dynamo.py`: query the partition
`SERVICE#<service_name>` and drain its pages. -/
def fetch_service_data (table : DynamoTable) (service_name : String) :
    Except String (List StoredRecord) :=
  fetchLoop (table.partition ("SERVICE#" ++ service_name))

theorem fetchLoop_all_ok (pages : List (List StoredRecord)) :
    fetchLoop (pages.map Except.ok) = Except.ok pages.flatten := by
  induction pages with
  | nil => rfl
  | cons p rest ih => simp [fetchLoop, ih]

theorem fetchLoop_error (epages : List (Except String (List StoredRecord)))
    (e : String) (hmem : Except.error e ∈ epages) :
    ∃ e', fetchLoop epages = Except.error e' := by
  induction epages with
  | nil => cases hmem
  | cons p rest ih =>
      cases p with
      | error e'' => exact ⟨e'', rfl⟩
      | ok page =>
          have hmem' : Except.error e ∈ rest := by
            rcases List.mem_cons.mp hmem with h | h
            · cases h
            · exact h
          obtain ⟨e', he'⟩ := ih hmem'
          exact ⟨e', by simp [fetchLoop, he']⟩

/-- **C7.** For every service and every pagination of its partition,
`fetch_service_data` returns the concatenation of all pages (every
record exactly as often as it occurs across the pages — no loss, no
duplication) when every page query succeeds, and surfaces a failure
(never a silent partial result) when any page query fails. -/
theorem fetch_service_data_complete (table : DynamoTable) (service_name : String) :
    (∀ pages : List (List StoredRecord),
      table.partition ("SERVICE#" ++ service_name) = pages.map Except.ok →
        fetch_service_data table service_name = Except.ok pages.flatten) ∧
    (∀ e, Except.error e ∈ table.partition ("SERVICE#" ++ service_name) →
      ∃ e', fetch_service_data table service_name = Except.error e') := by
  constructor
  · intro pages hp
    rw [fetch_service_data, hp, fetchLoop_all_ok]
  · intro e hmem
    exact fetchLoop_error _ e hmem

/-- Closed witness for C7: a two-page partition is drained whole, and a
failing page surfaces an error. -/
theorem fetch_service_data_complete_witness :
    fetch_service_data
        { partition := fun _ =>
            [Except.ok [emptyRecord], Except.ok [emptyRecord, emptyRecord]] } "svc" =
      Except.ok [emptyRecord, emptyRecord, emptyRecord] ∧
    ∃ e', fetch_service_data
        { partition := fun _ => [Except.ok [emptyRecord], Except.error "boom"] } "svc" =
      Except.error e' := by
  constructor
  · have h := (fetch_service_data_complete
      { partition := fun _ =>
          [Except.ok [emptyRecord], Except.ok [emptyRecord, emptyRecord]] } "svc").1
      [[emptyRecord], [emptyRecord, emptyRecord]] rfl
    simpa using h
  · exact (fetch_service_data_complete
      { partition := fun _ => [Except.ok [emptyRecord], Except.error "boom"] } "svc").2
      "boom" (by simp)

/-! ### `capture/buffer.py`: ObservationBuffer (C6, C8, C9, C10)

The lock-protected critical sections of `add`/`flush` execute atomically
with respect to each other; trace events below model one critical
section each. Exceptions are modelled with `Except`: a Python function
that may raise returns `Except.error`. -/

/-- Buffer configuration (`max_size`, `flush_interval`, buffer.py 14-22). -/
structure BufferConfig where
  max_size : Nat := 100
  flush_interval : Int := 30

/-- The mutable state guarded by `self._lock`: the pending list and the
last-flush timestamp (buffer.py 23-25). -/
structure BufferState where
  observations : List Observation := []
  last_flush : Int
deriving DecidableEq

/-- `_should_flush` (buffer.py 38-42). -/
def shouldFlush (cfg : BufferConfig) (st : BufferState) (now : Int) : Bool :=
  decide (cfg.max_size ≤ st.observations.length) ||
    decide (cfg.flush_interval ≤ now - st.last_flush)

/-- `_drain` (buffer.py 54-58): hand back the batch, reset the list and
the last-flush timestamp. -/
def drain (st : BufferState) (now : Int) : List Observation × BufferState :=
  (st.observations, { observations := [], last_flush := now })

/-- `_safe_flush` (buffer.py 60-64): invoke the configured flush
function and catch any exception, reducing it to a logged warning. -/
def safeFlush (flushFn : List Observation → Except String Unit)
    (batch : List Observation) : Except String Unit :=
  match flushFn batch with
  | Except.ok _ => Except.ok ()
  | Except.error _ => Except.ok ()

/-- `add` (buffer.py 27-31) with exception propagation explicit: append,
evaluate `_should_flush`, and on dispatch drain and hand the non-empty
batch to a background thread (returned as the optional second
component); `add` itself never invokes the flush function. -/
def addE (cfg : BufferConfig) (st : BufferState) (o : Observation) (now : Int) :
    Except String (BufferState × Option (List Observation)) :=
  let st1 : BufferState := { st with observations := st.observations ++ [o] }
  if shouldFlush cfg st1 now then
    let (batch, st2) := drain st1 now
    if batch ≠ [] then Except.ok (st2, some batch) else Except.ok (st2, none)
  else Except.ok (st1, none)

/-- `flush` (buffer.py 33-36, via `_flush_sync`, 49-52): drain, then run
`_safe_flush` synchronously on a non-empty batch; an exception escaping
`_safe_flush` would propagate to the caller. -/
def flushE (flushFn : List Observation → Except String Unit)
    (st : BufferState) (now : Int) : Except String BufferState :=
  let (batch, st2) := drain st now
  if batch ≠ [] then
    match safeFlush flushFn batch with
    | Except.ok _ => Except.ok st2
    | Except.error e => Except.error e
  else Except.ok st2

/-- **C6.** With a flush function that raises on every invocation, no
call to `add` or `flush` raises (the failure is caught at the
`_safe_flush` boundary), the background execution of a dispatched batch
never raises, and every subsequent `add` on any resulting state still
succeeds. -/
theorem buffer_flush_failures_contained
    (flushFn : List Observation → Except String Unit)
    (_hfail : ∀ b, ∃ e, flushFn b = Except.error e) :
    (∀ cfg st o now, ∃ r, addE cfg st o now = Except.ok r) ∧
    (∀ st now, ∃ st', flushE flushFn st now = Except.ok st') ∧
    (∀ batch, safeFlush flushFn batch = Except.ok ()) := by
  have hsafe : ∀ batch, safeFlush flushFn batch = Except.ok () := by
    intro batch
    cases h : flushFn batch <;> simp [safeFlush, h]
  refine ⟨?_, ?_, hsafe⟩
  · intro cfg st o now
    rw [addE]
    by_cases h : shouldFlush cfg { st with observations := st.observations ++ [o] } now <;>
      simp [h, drain]
  · intro st now
    rw [flushE]
    by_cases h : (drain st now).1 ≠ [] <;> simp [h, hsafe]

/-- Closed witness for C6: an always-raising flush function satisfies the
hypothesis, and a synchronous flush of a non-empty buffer still returns. -/
theorem buffer_flush_failures_contained_witness :
    ∃ st', flushE (fun _ => Except.error "boom")
      { observations := [sampleObs], last_flush := 0 } 1 = Except.ok st' :=
  (buffer_flush_failures_contained (fun _ => Except.error "boom")
    (fun _ => ⟨"boom", rfl⟩)).2.1 { observations := [sampleObs], last_flush := 0 } 1

/-! ### Drain atomicity under interleaving (C8) -/

/-- One lock-protected critical section: an `add` append (buffer.py
28-31) or a drain-and-dispatch (`_drain` plus handing the batch to its
flush path, buffer.py 45-47 / 50-52); the mutex makes each atomic with
respect to the others. -/
inductive BufEvent
  | add (o : Observation)
  | drain

/-- Buffer content plus the batches dispatched so far. -/
structure TraceState where
  buffer : List Observation := []
  flushed : List (List Observation) := []

/-- Effect of one critical section (a drained empty batch is not
dispatched, buffer.py 46/51). -/
def stepBuf (s : TraceState) : BufEvent → TraceState
  | BufEvent.add o => { s with buffer := s.buffer ++ [o] }
  | BufEvent.drain =>
      { buffer := [],
        flushed := if s.buffer ≠ [] then s.flushed ++ [s.buffer] else s.flushed }

/-- Run an arbitrary interleaving of producer appends and drains. -/
def runBuf (trace : List BufEvent) : TraceState :=
  trace.foldl stepBuf {}

/-- The observations added over a trace, in order. -/
def addsOf (trace : List BufEvent) : List Observation :=
  trace.filterMap (fun e => match e with
    | BufEvent.add o => some o
    | BufEvent.drain => none)

theorem stepBuf_conserves (trace : List BufEvent) (s : TraceState) :
    (trace.foldl stepBuf s).flushed.flatten ++ (trace.foldl stepBuf s).buffer =
      s.flushed.flatten ++ s.buffer ++ addsOf trace := by
  induction trace generalizing s with
  | nil => simp [addsOf]
  | cons e t ih =>
      cases e with
      | add o =>
          rw [List.foldl_cons, ih]
          simp [stepBuf, addsOf, List.append_assoc]
      | drain =>
          rw [List.foldl_cons, ih]
          by_cases h : s.buffer = [] <;>
            simp [stepBuf, addsOf, h, List.append_assoc]

/-- **C8.** Over every interleaving of producer `add` sections and
drain-and-dispatch sections, the dispatched batches plus the residual
buffer are exactly the added observations, in order: `N` adds yield
exactly `N` observations across batches and buffer (no duplication, no
loss), and when the trace ends drained, the flushed batches alone hold
exactly the added observations. -/
theorem buffer_drain_atomicity (trace : List BufEvent) :
    (runBuf trace).flushed.flatten ++ (runBuf trace).buffer = addsOf trace ∧
    (runBuf trace).flushed.flatten.length + (runBuf trace).buffer.length =
      (addsOf trace).length ∧
    ((runBuf trace).buffer = [] → (runBuf trace).flushed.flatten = addsOf trace) := by
  have h : (runBuf trace).flushed.flatten ++ (runBuf trace).buffer = addsOf trace := by
    have := stepBuf_conserves trace {}
    simpa [runBuf] using this
  refine ⟨h, ?_, ?_⟩
  · calc (runBuf trace).flushed.flatten.length + (runBuf trace).buffer.length
        = ((runBuf trace).flushed.flatten ++ (runBuf trace).buffer).length := by
          simp
      _ = (addsOf trace).length := by rw [h]
  · intro hb
    simpa [hb] using h

/-- Closed witness for C8: two adds and a drain dispatch exactly the two
observations. -/
theorem buffer_drain_atomicity_witness :
    (runBuf [BufEvent.add sampleObs, BufEvent.add sampleObs, BufEvent.drain]).buffer = [] ∧
    (runBuf [BufEvent.add sampleObs, BufEvent.add sampleObs,
        BufEvent.drain]).flushed.flatten =
      addsOf [BufEvent.add sampleObs, BufEvent.add sampleObs, BufEvent.drain] :=
  ⟨rfl, (buffer_drain_atomicity
    [BufEvent.add sampleObs, BufEvent.add sampleObs, BufEvent.drain]).2.2 rfl⟩

/-! ### What runs while the mutex is held (C9) -/

/-- The individual operations the buffer performs while holding
`self._lock`. -/
inductive LockAction
  | appendObs        -- `self._observations.append(obs)` (buffer.py 29)
  | evalShouldFlush  -- `_should_flush()`: length and clock reads (30, 38-42)
  | swapList         -- `batch = self._observations[:]; self._observations = []` (55-56)
  | setLastFlush     -- `self._last_flush = time.monotonic()` (57)
  | spawnThread      -- `threading.Thread(...).start()` (47)
  | callFlushFn      -- `self._flush_fn(batch)` via `_safe_flush` (62)
deriving DecidableEq

/-- The actions `add` performs inside `with self._lock` (buffer.py
28-31): append, evaluate the trigger, and — when it dispatches — drain
and start the background thread. The flush function itself is never
called here. -/
def addLockedActions (dispatches : Bool) : List LockAction :=
  [LockAction.appendObs, LockAction.evalShouldFlush] ++
    (if dispatches then
      [LockAction.swapList, LockAction.setLastFlush, LockAction.spawnThread]
     else [])

/-- The actions `flush` performs inside `with self._lock` (buffer.py
35-36 via `_flush_sync`, 49-52): drain, then for a non-empty batch run
`_safe_flush` — i.e. the configured flush function — synchronously,
still holding the lock. -/
def flushLockedActions (batchNonempty : Bool) : List LockAction :=
  [LockAction.swapList, LockAction.setLastFlush] ++
    (if batchNonempty then [LockAction.callFlushFn] else [])

/-- Whether an action can take unbounded time: only invoking the
configured flush function can (it may sleep or perform network I/O);
every other action is constant-time in-memory list/timestamp/thread
manipulation. -/
def mayBlockIndefinitely : LockAction → Bool
  | LockAction.callFlushFn => true
  | _ => false

/-- Duration of one lock-held action when the configured flush function
takes `flushDuration` time units; non-blocking actions take one unit. -/
def actionTime (flushDuration : Nat) (a : LockAction) : Nat :=
  if mayBlockIndefinitely a then flushDuration else 1

/-- Total time the mutex is held across a critical section. -/
def lockHoldTime (flushDuration : Nat) (actions : List LockAction) : Nat :=
  (actions.map (actionTime flushDuration)).sum

/-- **C9, counterexample.** The claim that the buffer's mutex is held
only for in-memory list and timestamp manipulation — so that `add`
returns within lock acquire/release time even while a concurrent
synchronous `flush()` runs a flush function that sleeps indefinitely —
is false: a synchronous `flush()` with a non-empty batch invokes the
configured flush function while holding the lock. -/
theorem flush_calls_flushFn_under_lock :
    LockAction.callFlushFn ∈ flushLockedActions true ∧
    (flushLockedActions true).all (fun a => !mayBlockIndefinitely a) = false := by
  decide

/-- **C9, amended.** `add` itself never invokes the flush function while
holding the mutex — its lock-held work is bounded, independent of the
flush function's duration — but a synchronous `flush()` with a non-empty
batch does, so its lock-hold time grows with the flush function's
duration and a concurrent `add` can be blocked for that long. -/
theorem add_lock_bounded_flush_lock_unbounded :
    (∀ dispatches : Bool,
      decide (LockAction.callFlushFn ∈ addLockedActions dispatches) = false) ∧
    (∀ flushDuration : Nat, ∀ dispatches : Bool,
      lockHoldTime flushDuration (addLockedActions dispatches) ≤ 5) ∧
    (∀ flushDuration : Nat,
      flushDuration ≤ lockHoldTime flushDuration (flushLockedActions true)) := by
  refine ⟨by decide, ?_, ?_⟩
  · intro fd d
    cases d <;> simp [lockHoldTime, addLockedActions, actionTime, mayBlockIndefinitely]
  · intro fd
    simp [lockHoldTime, flushLockedActions, actionTime, mayBlockIndefinitely]
    omega

/-! ### No background timer: the time trigger fires only inside `add` (C10) -/

/-- A point in the buffer's life: a public `add(obs)` call at clock
`now`, a public `flush()` call at clock `now`, or the passage of `dt`
time units with no public call. -/
inductive TimedEvent
  | add (o : Observation) (now : Int)
  | flushCall (now : Int)
  | idle (dt : Int)

/-- Buffer state plus dispatched batches and a wall clock. -/
structure TimedState where
  buf : BufferState
  flushed : List (List Observation) := []
  clock : Int := 0

/-- Effect of one event. `add` appends and then evaluates
`_should_flush` on the appended list (buffer.py 29-30); `flush` drains
unconditionally (33-36). `ObservationBuffer` starts no thread and no
timer of its own (its only executable paths are its methods), so with no
public call only the clock advances. -/
def stepTimed (cfg : BufferConfig) (s : TimedState) : TimedEvent → TimedState
  | TimedEvent.add o now =>
      let st1 : BufferState := { s.buf with observations := s.buf.observations ++ [o] }
      if shouldFlush cfg st1 now then
        let (batch, st2) := drain st1 now
        { buf := st2,
          flushed := if batch ≠ [] then s.flushed ++ [batch] else s.flushed,
          clock := now }
      else { s with buf := st1, clock := now }
  | TimedEvent.flushCall now =>
      let (batch, st2) := drain s.buf now
      { buf := st2,
        flushed := if batch ≠ [] then s.flushed ++ [batch] else s.flushed,
        clock := now }
  | TimedEvent.idle dt => { s with clock := s.clock + dt }

/-- **C10.** The flush-interval trigger is evaluated only inside `add`,
on the state after appending: with no further `add`/`flush` call the
buffer never dispatches on its own — arbitrary idle time (in particular
far beyond `flush_interval`) leaves the pending list, the last-flush
timestamp and the dispatched batches untouched — and an `add` dispatches
exactly when the appended length reaches `max_size` or the time since
the last flush reaches `flush_interval`. -/
theorem buffer_no_background_timer (cfg : BufferConfig) (s : TimedState) :
    (∀ dts : List Int,
      (dts.foldl (fun t dt => stepTimed cfg t (TimedEvent.idle dt)) s).buf = s.buf ∧
      (dts.foldl (fun t dt => stepTimed cfg t (TimedEvent.idle dt)) s).flushed =
        s.flushed) ∧
    (∀ o now,
      ((stepTimed cfg s (TimedEvent.add o now)).flushed ≠ s.flushed ↔
        (cfg.max_size ≤ s.buf.observations.length + 1 ∨
          cfg.flush_interval ≤ now - s.buf.last_flush))) := by
  constructor
  · intro dts
    induction dts generalizing s with
    | nil => exact ⟨rfl, rfl⟩
    | cons dt t ih =>
        rw [List.foldl_cons]
        exact ih { s with clock := s.clock + dt }
  · intro o now
    by_cases h : shouldFlush cfg { s.buf with observations := s.buf.observations ++ [o] } now
    · have hcond : cfg.max_size ≤ s.buf.observations.length + 1 ∨
          cfg.flush_interval ≤ now - s.buf.last_flush := by
        have := h
        simp only [shouldFlush, Bool.or_eq_true, decide_eq_true_eq,
          List.length_append, List.length_singleton] at this
        exact this
      simp only [stepTimed, h, if_pos, drain]
      constructor
      · intro _; exact hcond
      · intro _
        intro heq
        have hne : s.buf.observations ++ [o] ≠ [] := by simp
        rw [if_pos hne] at heq
        have hlen := congrArg List.length heq
        simp at hlen
    · have hcond : ¬ (cfg.max_size ≤ s.buf.observations.length + 1 ∨
          cfg.flush_interval ≤ now - s.buf.last_flush) := by
        intro hc
        apply h
        simp only [shouldFlush, Bool.or_eq_true, decide_eq_true_eq,
          List.length_append, List.length_singleton]
        exact hc
      simp [stepTimed, h, hcond]
